import Mathlib

/-!
Verification development for `util/find-missing-names-dblp.py`.

The script reconciles candidate person names against the DBLP author search
service.  This file shallowly embeds the pure computational content of the
script — name normalization, canonicalization, the verdict classification of
`dblp_author_search`, the PID pacing controller, and the resumable
ledger/dedup state machine of `process_batch` / `find_missing_names` — and
proves the specification's claims about them.

Modelling conventions:
* Python `float` arithmetic is modelled by exact rational arithmetic (`ℚ`);
  the claims proved about the controller concern the algebraic structure of
  the computation, not IEEE rounding.
* The network is modelled as an explicit world value: the outcome of the
  single `requests.get` call of `dblp_author_search`, and the boolean result
  of `has_alias_match` (which in the source wraps its body in
  `try/except` and hence always returns a `bool`).
* File contents are modelled as the list of their lines (progress ledger),
  the list of their data rows (output CSV; the header row is not modelled),
  and the list of log lines.
* `unicodedata.normalize("NFKC", ·)` is the identity on ASCII strings; the
  model omits it, and every theorem quantifying over arbitrary strings
  carries an explicit ASCII hypothesis.
-/

namespace FindMissing

/-! ### Whitespace, lower-casing, strip: Python string primitives -/

/-- Code points of the characters matched by Python's `\s` (for `str`
patterns) and stripped by `str.strip()`: the characters for which
`str.isspace()` holds. -/
def pySpaceCodes : List Nat :=
  [9, 10, 11, 12, 13, 28, 29, 30, 31, 32, 133, 160, 5760,
   8192, 8193, 8194, 8195, 8196, 8197, 8198, 8199, 8200, 8201, 8202,
   8232, 8233, 8239, 8287, 12288]

def isPySpace (c : Char) : Bool := pySpaceCodes.contains c.toNat

/-- Model of Python `str.lower` restricted to its ASCII action
(`A`–`Z` map to `a`–`z`, everything else in the model is fixed).
Theorems quantifying over arbitrary strings carry an ASCII hypothesis. -/
def pyLower (c : Char) : Char :=
  if 65 ≤ c.toNat ∧ c.toNat ≤ 90 then Char.ofNat (c.toNat + 32) else c

/-- `re.sub(r"\s+", " ", ·)`: every maximal run of whitespace characters is
replaced by a single space.  The flag records whether the scanner is inside
a whitespace run whose replacement space has already been emitted. -/
def collapseWsAux : Bool → List Char → List Char
  | _, [] => []
  | inRun, c :: cs =>
    if isPySpace c then
      if inRun then collapseWsAux true cs
      else ' ' :: collapseWsAux true cs
    else c :: collapseWsAux false cs

def collapseWs (l : List Char) : List Char := collapseWsAux false l

/-- Python `str.strip()`: drop whitespace from both ends. -/
def stripChars (l : List Char) : List Char :=
  ((l.dropWhile isPySpace).reverse.dropWhile isPySpace).reverse

def pyStrip (s : String) : String := String.mk (stripChars s.data)

/-! ### `normalize_input_name`: the regex substitution
`re.sub(r"\s*\[.*?\]\s*", "", name).strip()` -/

/-- The lazy `.*?\]` part: scan to the first `]`; `.` does not match a
newline, so a newline before any `]` makes the match fail. -/
def scanClose : List Char → Option (List Char)
  | [] => none
  | c :: cs =>
    if c = ']' then some cs
    else if c = '\n' then none
    else scanClose cs

/-- Does a match of `\s*\[.*?\]\s*` start at the head of `l`?  The leading
`\s*` must reach a `[` (backtracking to a shorter whitespace prefix cannot
help, since a whitespace character is never `[`); the trailing `\s*` is
greedy.  Returns the remainder of the string after the match. -/
def matchAt (l : List Char) : Option (List Char) :=
  match l.dropWhile isPySpace with
  | '[' :: t => (scanClose t).map (fun r => r.dropWhile isPySpace)
  | _ => none

/-- `re.sub` scanning loop: emit characters until a leftmost match is found,
remove the match, and continue after it.  Fuel (the length of the initial
list) bounds the recursion; each step either consumes the head or a
nonempty match. -/
def subAux : Nat → List Char → List Char
  | 0, l => l
  | _ + 1, [] => []
  | fuel + 1, c :: cs =>
    match matchAt (c :: cs) with
    | some rest => subAux fuel rest
    | none => c :: subAux fuel cs

/-- `normalize_input_name` from the source: remove every occurrence of
`\s*\[.*?\]\s*`, then `strip()`. -/
def normalize_input_name (s : String) : String :=
  String.mk (stripChars (subAux s.data.length s.data))

/-! ### `canonicalize` -/

/-- Character-level body of `canonicalize`: collapse whitespace runs, remove
periods, lower-case, strip.  (`unicodedata.normalize("NFKC", ·)`, the first
step in the source, is the identity on ASCII input and is omitted from the
model; see the file header.) -/
def canonChars (l : List Char) : List Char :=
  stripChars (((collapseWs l).filter (fun c => c ≠ '.')).map pyLower)

def canonicalize (s : String) : String := String.mk (canonChars s.data)

/-! ### `dblp_author_search` -/

inductive Verdict where
  | EXACT
  | ALIAS
  | NOT_FOUND
  | ERROR
deriving DecidableEq, Repr

def Verdict.str : Verdict → String
  | .EXACT => "EXACT"
  | .ALIAS => "ALIAS"
  | .NOT_FOUND => "NOT_FOUND"
  | .ERROR => "ERROR"

/-- One hit of the search response: `hit.get("info", {}).get("author", "")`
and `... .get("url", "")` (missing keys default to `""`). -/
structure Hit where
  author : String
  url : String
deriving DecidableEq, Repr

/-- Outcome of the `requests.get` call in `dblp_author_search`:
either the call raised (connection failure, timeout), or it returned a
response with a status code and — if the body parsed as the expected
hits shape — the list of hits.  `json = none` covers `response.json()`
raising as well as the hit list having an unexpected shape (every such
fault is caught by the function's `try/except` and becomes ERROR). -/
inductive SearchOutcome where
  | raised
  | response (status : Nat) (json : Option (List Hit))

/-- The external world seen by one `dblp_author_search` call: the search
outcome, and the value of `has_alias_match(dblp_url, normalized)` for each
hit URL.  In the source `has_alias_match` wraps its network and XML work in
`try/except` with a `bool` result and never raises, so it is modelled as a
total boolean function. -/
structure SearchWorld where
  search : SearchOutcome
  has_alias_match : String → String → Bool

/-- The `for hit in hits` loop: `found_exact`/`found_alias` flags.  A hit
whose canonicalized author equals the canonicalized query sets
`found_exact`; otherwise (`elif`) a hit with a nonempty URL for which
`has_alias_match` holds sets `found_alias`. -/
def hitFlags (w : SearchWorld) (normalized canonQ : String)
    (hits : List Hit) : Bool × Bool :=
  hits.foldl
    (fun fl hit =>
      if canonicalize hit.author = canonQ then (true, fl.2)
      else if hit.url ≠ "" ∧ w.has_alias_match hit.url normalized = true then (fl.1, true)
      else fl)
    (false, false)

/-- `dblp_author_search` from the source.  The whole body is guarded by
`try/except Exception` returning `(name, "ERROR")`, so the model is a total
function: a raised `requests.get`, an explicit raise on status 429,
`raise_for_status()` (which raises exactly for 400 ≤ status < 600), and a
failed/ill-shaped `response.json()` all yield ERROR. -/
def dblp_author_search (w : SearchWorld) (name : String) : String × Verdict :=
  let normalized := normalize_input_name name
  let canonQ := canonicalize normalized
  match w.search with
  | .raised => (name, .ERROR)
  | .response status json =>
    if status = 429 then (name, .ERROR)
    else if 400 ≤ status ∧ status < 600 then (name, .ERROR)
    else
      match json with
      | none => (name, .ERROR)
      | some hits =>
        let fl := hitFlags w normalized canonQ hits
        if fl.1 then (name, .EXACT)
        else if fl.2 then (name, .ALIAS)
        else (name, .NOT_FOUND)

/-! ### `PIDController` -/

/-- The controller object: gains and setpoint from `__init__`, plus the
mutable state (`integral`, `prev_error`).  The lock is elided: every
`update` in the program is performed by the single coordinating thread. -/
structure PIDController where
  kp : ℚ
  ki : ℚ
  kd : ℚ
  setpoint : ℚ
  integral : ℚ
  prev_error : Option ℚ
deriving DecidableEq, Repr

/-- `PIDController.__init__`: `integral = 0.0`, `prev_error = None`. -/
def PIDController.mkInit (kp ki kd setpoint : ℚ) : PIDController :=
  ⟨kp, ki, kd, setpoint, 0, none⟩

/-- `PIDController.update`: returns the new state and the control signal. -/
def PIDController.update (c : PIDController) (measured_value : ℚ) :
    PIDController × ℚ :=
  let error := c.setpoint - measured_value
  let integral := c.integral + error
  let derivative := match c.prev_error with
    | none => 0
    | some p => error - p
  ({ c with integral := integral, prev_error := some error },
   c.kp * error + c.ki * integral + c.kd * derivative)

/-- Controller state after a sequence of measured values. -/
def pidAfter (c₀ : PIDController) (ms : List ℚ) : PIDController :=
  ms.foldl (fun c m => (c.update m).1) c₀

/-- The value returned by the `i`-th `update` call (0-based) of a run over
the measured values `ms`. -/
def pidReturn (c₀ : PIDController) (ms : List ℚ) (i : Nat) : ℚ :=
  ((pidAfter c₀ (ms.take i)).update (ms.getD i 0)).2

/-- `sleep_time = max(0.1, 1.0 + sleep_adjustment)` from `process_batch`. -/
def sleep_time (sleep_adjustment : ℚ) : ℚ := max 0.1 (1.0 + sleep_adjustment)

/-! ### The resumable run model: `process_batch` and `find_missing_names` -/

/-- One input CSV row: the `name` column plus the remaining (opaque)
column values, echoed verbatim to the output ledger. -/
structure Row where
  name : String
  payload : List String
deriving DecidableEq, Repr

/-- Outcome of one completed future as seen by the `as_completed` loop:
`future.result()` either returns `(name, verdict)` (and
`dblp_author_search` always returns its argument name as the first
component) or raises, which the loop logs as `EXCEPTION`. -/
inductive Outcome where
  | ok (verdict : Verdict)
  | exn (msg : String)
deriving DecidableEq, Repr

/-- Durable state: lines of the progress ledger, data rows of the output
CSV and lines of the diagnostic log. -/
structure FS where
  progress : List String
  output : List Row
  log : List String
deriving DecidableEq, Repr

/-- Fresh filesystem: none of the three artifacts exists yet. -/
def FS.start : FS := ⟨[], [], []⟩

/-- Splitting a written string into file lines: appending `name + "\n"` to
the progress file appends the `'\n'`-separated pieces of `name` as lines. -/
def splitNL : List Char → List (List Char)
  | [] => [[]]
  | c :: cs =>
    if c = '\n' then [] :: splitNL cs
    else
      match splitNL cs with
      | [] => [[c]]
      | h :: t => (c :: h) :: t

/-- Lines appended to the progress ledger by `f.write(f"{name}\n")`. -/
def progressLinesOf (name : String) : List String :=
  (splitNL name.data).map String.mk

/-- Startup load of the progress ledger:
`seen.update(line.strip() for line in f if line.strip())`. -/
def loadSeen (lines : List String) : Finset String :=
  ((lines.map pyStrip).filter (fun s => s ≠ "")).toFinset

/-- In-memory state of one `process_batch` run while draining completed
futures. -/
structure BatchState where
  seen : Finset String
  already_output : Finset String
  progress : List String
  output : List Row
  log : List String
  total_requests : Nat
  total_errors : Nat
  pid : PIDController

/-- Body of the `for future in as_completed(futures)` loop for one
completed task (the loop runs in the single main thread, so the steps are
serialized exactly in this order): log the verdict (or the exception);
on NOT_FOUND with an unseen output name, append the row to the output CSV
and record the name; count errors; append the name to the progress ledger;
add it to `seen`; bump `total_requests`; feed the error rate to the PID
controller (the resulting `time.sleep` is external to the state). -/
def processResult (st : BatchState) (item : Row × Outcome) : BatchState :=
  let row := item.1
  let st1 : BatchState :=
    match item.2 with
    | .ok verdict =>
      let stLog := { st with log := st.log ++ [row.name ++ " -> " ++ verdict.str] }
      let stOut :=
        if verdict = Verdict.NOT_FOUND ∧ row.name ∉ stLog.already_output then
          { stLog with
              output := stLog.output ++ [row],
              already_output := insert row.name stLog.already_output }
        else stLog
      if verdict = Verdict.ERROR then
        { stOut with total_errors := stOut.total_errors + 1 }
      else stOut
    | .exn msg =>
      { st with
          log := st.log ++ [row.name ++ " -> EXCEPTION: " ++ msg],
          total_errors := st.total_errors + 1 }
  let st2 :=
    { st1 with
        progress := st1.progress ++ progressLinesOf row.name,
        seen := insert row.name st1.seen,
        total_requests := st1.total_requests + 1 }
  { st2 with
      pid := (st2.pid.update ((st2.total_errors : ℚ) / (st2.total_requests : ℚ))).1 }

/-- The task set built by `process_batch`:
`{executor.submit(dblp_author_search, row["name"]): row for row in rows if row["name"] not in seen}`.
One classification task per row whose name is not in `seen`; these are the
only invocations of `dblp_author_search` in a run. -/
def tasksOf (seen : Finset String) (rows : List Row) : List Row :=
  rows.filter (fun r => r.name ∉ seen)

/-- One run: the input rows, and the completed futures in completion order
together with each future's outcome.  A run is well formed
(see `validFrom`) when the completed tasks are a permutation of the
submitted task set. -/
structure RunSpec where
  rows : List Row
  completed : List (Row × Outcome)
deriving DecidableEq, Repr

/-- One invocation of the program (`find_missing_names` plus its single
`process_batch` call): rebuild `seen` from the progress ledger and
`already_output` from the output CSV, return unchanged on empty input,
otherwise drain the completed futures.  The PID controller is created
fresh with the gains of the source (`kp=5.0, ki=0.5, kd=0.2,
setpoint=0.01`) and discarded at exit. -/
def find_missing_names (fs : FS) (r : RunSpec) : FS :=
  if r.rows.isEmpty then fs
  else
    let seen := loadSeen fs.progress
    let already := (fs.output.map Row.name).toFinset
    let st0 : BatchState :=
      ⟨seen, already, fs.progress, fs.output, fs.log, 0, 0,
       PIDController.mkInit 5.0 0.5 0.2 0.01⟩
    let st := r.completed.foldl processResult st0
    ⟨st.progress, st.output, st.log⟩

/-- A lifetime of resumed runs over the same files. -/
def lifetime (fs : FS) (runs : List RunSpec) : FS :=
  runs.foldl find_missing_names fs

/-- Well-formedness of a lifetime: in each run, the completed futures are
exactly the submitted tasks (`tasksOf` of the `seen` set loaded at that
run's start), in some completion order. -/
def validFrom : FS → List RunSpec → Bool
  | _, [] => true
  | fs, r :: rs =>
    decide ((r.completed.map Prod.fst).Perm (tasksOf (loadSeen fs.progress) r.rows)) &&
      validFrom (find_missing_names fs r) rs

/-- All names that underwent a classification attempt during a lifetime,
in order, with multiplicity. -/
def attemptedNames (runs : List RunSpec) : List String :=
  (runs.map (fun r => r.completed.map (fun p => p.1.name))).flatten

/-- A name that round-trips through the progress ledger unchanged:
nonempty, fixed by `strip()`, and free of line breaks. -/
def cleanName (n : String) : Prop :=
  pyStrip n = n ∧ n ≠ "" ∧ '\n' ∉ n.data

instance : DecidablePred cleanName := fun n => by
  unfold cleanName; exact inferInstance

/-! ### Predicates used to state properties, and concrete demonstration
values used by witnesses -/

/-- A hit that matches the query exactly: its canonicalized displayed name
equals the canonicalized query. -/
def exactHitB (canonQ : String) (hit : Hit) : Bool :=
  canonicalize hit.author = canonQ

/-- A hit satisfying the alias-match condition of the loop: not an exact
match, nonempty profile URL, and `has_alias_match` holds for it. -/
def aliasHitB (w : SearchWorld) (normalized canonQ : String) (hit : Hit) : Bool :=
  (!(exactHitB canonQ hit)) && (decide (hit.url ≠ "")) &&
    w.has_alias_match hit.url normalized

/-- A controller with the program's gains and setpoint
(`kp=5.0, ki=0.5, kd=0.2, setpoint=0.01`) and arbitrary fixed state. -/
def pidProgram (integral : ℚ) (prev_error : Option ℚ) : PIDController :=
  { PIDController.mkInit 5.0 0.5 0.2 0.01 with
      integral := integral, prev_error := prev_error }

def rowA : Row := ⟨"A", []⟩
def rowB : Row := ⟨"B", []⟩
def rowC : Row := ⟨"C", []⟩

/-- A run whose input contains the same name in two rows: both rows are
submitted (the task set is built before any result is processed). -/
def dupRun : RunSpec :=
  ⟨[rowA, rowA], [(rowA, Outcome.ok Verdict.NOT_FOUND), (rowA, Outcome.ok Verdict.NOT_FOUND)]⟩

/-- A filesystem whose progress ledger already records the name `A`. -/
def fsP : FS := ⟨["A"], [], []⟩

/-- A run against `fsP`: `A` is in the ledger, so only `B` is submitted. -/
def runP : RunSpec := ⟨[rowA, rowB], [(rowB, Outcome.ok Verdict.NOT_FOUND)]⟩

/-- Two well-formed runs with clean, per-run-distinct names. -/
def run1 : RunSpec :=
  ⟨[rowA, rowB], [(rowB, Outcome.ok Verdict.ERROR), (rowA, Outcome.exn "boom")]⟩
def run2 : RunSpec := ⟨[rowA, rowC], [(rowC, Outcome.ok Verdict.EXACT)]⟩

/-- A world answering the search request with HTTP 429. -/
def w429 : SearchWorld := ⟨SearchOutcome.response 429 (some []), fun _ _ => false⟩

/-- A world answering with one hit whose displayed name matches exactly. -/
def wHit : SearchWorld :=
  ⟨SearchOutcome.response 200 (some [⟨"Jane Doe", "https://dblp.org/pid/00/1"⟩]),
   fun _ _ => false⟩

/-- A batch state at the start of a fresh run over fresh files. -/
def stFresh : BatchState :=
  ⟨∅, ∅, [], [], [], 0, 0, PIDController.mkInit 5.0 0.5 0.2 0.01⟩

/-- Adjacent characters are not both whitespace (the shape of
`collapseWs` output: no two adjacent whitespace characters survive). -/
def noTwoWs (a b : Char) : Prop := isPySpace a = false ∨ isPySpace b = false

/-! ## Theorems -/

/-- C7 counterexample: the two sides differ on the code.  `canonicalize`
removes the periods of `"J. R. R. Tolkien"` but keeps the spaces between
the initials, producing `"j r r tolkien"`, while `"jrr tolkien"`
canonicalizes to itself. -/
theorem claim_C7_counterexample :
    canonicalize "J. R. R. Tolkien" ≠ canonicalize "jrr tolkien" := by decide

/-- C7 (amended): when the initials carry no interior spaces, the claimed
equivalence holds: `canonicalize "J.R.R. Tolkien" = canonicalize "jrr tolkien"`
(both sides are `"jrr tolkien"`). -/
theorem claim_C7_amended :
    canonicalize "J.R.R. Tolkien" = canonicalize "jrr tolkien" := by decide

/-- C10: `normalize_input_name` removes a bracketed segment together with
the whitespace around it anywhere in the string: a mid-name bracket joins
the adjacent words with no separating space (`"Jane [0002] Doe" ↦
"JaneDoe"`), while a trailing annotation is removed cleanly
(`"Jane Doe [0002]" ↦ "Jane Doe"`). -/
theorem claim_C10_normalize_brackets :
    normalize_input_name "Jane [0002] Doe" = "JaneDoe" ∧
    normalize_input_name "Jane Doe [0002]" = "Jane Doe" := by decide

/-- C5: with the program's gains (`kp=5.0, ki=0.5, kd=0.2`) and setpoint
`0.01`, for any fixed controller state the returned signal is strictly
decreasing in the measured value (so lowering the measured error rate
strictly raises the signal), and the derived pacing delay
`max(0.1, 1.0 + signal)` is at least `0.1` for every signal. -/
theorem claim_C5_monotone_and_floor (integral : ℚ) (prev_error : Option ℚ)
    (m₁ m₂ : ℚ) (h : m₁ < m₂) :
    ((pidProgram integral prev_error).update m₂).2
      < ((pidProgram integral prev_error).update m₁).2 ∧
    ∀ adj : ℚ, (0.1 : ℚ) ≤ sleep_time adj := by
  constructor
  · rcases prev_error with _ | p <;>
      · simp only [pidProgram, PIDController.mkInit, PIDController.update]
        linarith
  · intro adj
    exact le_max_left _ _

/-- C5 witness at a concrete state and pair of measured values. -/
theorem claim_C5_witness :
    ((0 : ℚ) < 1) ∧
    (((pidProgram 0 none).update 1).2 < ((pidProgram 0 none).update 0).2 ∧
     ∀ adj : ℚ, (0.1 : ℚ) ≤ sleep_time adj) :=
  ⟨by norm_num, claim_C5_monotone_and_floor 0 none 0 1 (by norm_num)⟩

/-- `dblp_author_search` always returns its argument as the first
component (both return paths of the source return `name` unchanged). -/
theorem dblp_author_search_fst (w : SearchWorld) (name : String) :
    (dblp_author_search w name).1 = name := by
  rcases w with ⟨s, am⟩
  rcases s with _ | ⟨status, json⟩
  · rfl
  · rcases json with _ | hits <;>
      · simp only [dblp_author_search]
        split_ifs <;> rfl

/-- C2: the classifier is total: it returns `(name, verdict)` with the
verdict one of the four values, and every fault of the search call — the
request raising, an HTTP 429 response, a 4xx/5xx status (exactly the
statuses `raise_for_status` raises for), or a response-parse failure —
yields the verdict ERROR rather than a raised fault (the whole body of the
source function is guarded by `try/except Exception`, represented here by
the model being a total function into `String × Verdict`). -/
theorem claim_C2_search_total_error (w : SearchWorld) (name : String) :
    (dblp_author_search w name).1 = name ∧
    ((dblp_author_search w name).2 = Verdict.EXACT ∨
     (dblp_author_search w name).2 = Verdict.ALIAS ∨
     (dblp_author_search w name).2 = Verdict.NOT_FOUND ∨
     (dblp_author_search w name).2 = Verdict.ERROR) ∧
    (w.search = SearchOutcome.raised → (dblp_author_search w name).2 = Verdict.ERROR) ∧
    (∀ status json, w.search = SearchOutcome.response status json →
      (status = 429 ∨ (400 ≤ status ∧ status < 600) ∨ json = none) →
      (dblp_author_search w name).2 = Verdict.ERROR) := by
  refine ⟨dblp_author_search_fst w name, ?_, ?_, ?_⟩
  · rcases hv : (dblp_author_search w name).2 <;> simp
  · intro h
    simp [dblp_author_search, h]
  · intro status json h hcase
    rcases hcase with h429 | hstat | hnone
    · simp [dblp_author_search, h, h429]
    · by_cases h429 : status = 429
      · simp [dblp_author_search, h, h429]
      · simp [dblp_author_search, h, h429, hstat]
    · subst hnone
      simp only [dblp_author_search, h]
      split_ifs <;> rfl

/-- C2 witness: a 429 response yields `("Jane", ERROR)`. -/
theorem claim_C2_witness :
    (dblp_author_search w429 "Jane").1 = "Jane" ∧
    (dblp_author_search w429 "Jane").2 = Verdict.ERROR :=
  ⟨(claim_C2_search_total_error w429 "Jane").1,
   (claim_C2_search_total_error w429 "Jane").2.2.2 429 (some []) rfl (Or.inl rfl)⟩

/-- The `found_exact`/`found_alias` flags computed by the hit loop are the
`any` of the per-hit exact and alias conditions (each hit's contribution is
independent of the accumulated flags). -/
theorem hitFlags_foldl (w : SearchWorld) (normalized canonQ : String)
    (hits : List Hit) (b : Bool × Bool) :
    hits.foldl
      (fun fl hit =>
        if canonicalize hit.author = canonQ then (true, fl.2)
        else if hit.url ≠ "" ∧ w.has_alias_match hit.url normalized = true then (fl.1, true)
        else fl)
      b =
    (b.1 || hits.any (exactHitB canonQ),
     b.2 || hits.any (aliasHitB w normalized canonQ)) := by
  induction hits generalizing b with
  | nil => simp
  | cons h t ih =>
    simp only [List.foldl_cons, List.any_cons]
    by_cases he : canonicalize h.author = canonQ
    · rw [if_pos he, ih]
      simp [exactHitB, aliasHitB, he]
    · rw [if_neg he]
      by_cases ha : h.url ≠ "" ∧ w.has_alias_match h.url normalized = true
      · rw [if_pos ha, ih]
        simp only [exactHitB, aliasHitB, he, decide_eq_true_eq]
        rcases ha with ⟨hu, ham⟩
        simp [hu, ham, he]
      · rw [if_neg ha, ih]
        have : aliasHitB w normalized canonQ h = false := by
          simp only [aliasHitB, exactHitB]
          rcases Decidable.not_and_iff_or_not.mp ha with hu | ham
          · simp [not_not.mp hu]
          · simp [eq_false_of_ne_true ham]
        simp [exactHitB, he, this]

theorem hitFlags_eq (w : SearchWorld) (normalized canonQ : String) (hits : List Hit) :
    hitFlags w normalized canonQ hits =
      (hits.any (exactHitB canonQ), hits.any (aliasHitB w normalized canonQ)) := by
  unfold hitFlags
  rw [hitFlags_foldl]
  simp

/-- C3: on a successfully parsed hit list, a hit whose canonicalized
displayed name equals the canonicalized query forces verdict EXACT
regardless of any alias matches; ALIAS is returned only when no hit is an
exact match and some hit satisfies the alias condition; NOT_FOUND only
when neither occurs. -/
theorem claim_C3_exact_priority (w : SearchWorld) (name : String)
    (status : Nat) (hits : List Hit)
    (hw : w.search = SearchOutcome.response status (some hits))
    (h429 : status ≠ 429) (hstat : ¬(400 ≤ status ∧ status < 600)) :
    ((∃ h ∈ hits, canonicalize h.author = canonicalize (normalize_input_name name)) →
      (dblp_author_search w name).2 = Verdict.EXACT) ∧
    ((dblp_author_search w name).2 = Verdict.ALIAS →
      (¬∃ h ∈ hits, canonicalize h.author = canonicalize (normalize_input_name name)) ∧
      ∃ h ∈ hits, canonicalize h.author ≠ canonicalize (normalize_input_name name) ∧
        h.url ≠ "" ∧ w.has_alias_match h.url (normalize_input_name name) = true) ∧
    ((dblp_author_search w name).2 = Verdict.NOT_FOUND →
      (¬∃ h ∈ hits, canonicalize h.author = canonicalize (normalize_input_name name)) ∧
      ¬∃ h ∈ hits, canonicalize h.author ≠ canonicalize (normalize_input_name name) ∧
        h.url ≠ "" ∧ w.has_alias_match h.url (normalize_input_name name) = true) := by
  have hres :
      (dblp_author_search w name).2 =
        (if hits.any (exactHitB (canonicalize (normalize_input_name name))) then Verdict.EXACT
         else if hits.any (aliasHitB w (normalize_input_name name)
                (canonicalize (normalize_input_name name))) then Verdict.ALIAS
         else Verdict.NOT_FOUND) := by
    simp only [dblp_author_search, hw, if_neg h429, if_neg hstat, hitFlags_eq]
    split_ifs <;> rfl
  have hexact :
      hits.any (exactHitB (canonicalize (normalize_input_name name))) = true ↔
        ∃ h ∈ hits, canonicalize h.author = canonicalize (normalize_input_name name) := by
    simp [List.any_eq_true, exactHitB]
  have halias :
      hits.any (aliasHitB w (normalize_input_name name)
          (canonicalize (normalize_input_name name))) = true ↔
        ∃ h ∈ hits, canonicalize h.author ≠ canonicalize (normalize_input_name name) ∧
          h.url ≠ "" ∧ w.has_alias_match h.url (normalize_input_name name) = true := by
    simp [List.any_eq_true, aliasHitB, exactHitB, and_assoc]
  refine ⟨?_, ?_, ?_⟩
  · intro hex
    rw [hres, if_pos (hexact.mpr hex)]
  · intro hal
    rw [hres] at hal
    by_cases he : hits.any (exactHitB (canonicalize (normalize_input_name name))) = true
    · rw [if_pos he] at hal; exact absurd hal (by simp)
    · rw [if_neg he] at hal
      by_cases ha : hits.any (aliasHitB w (normalize_input_name name)
          (canonicalize (normalize_input_name name))) = true
      · exact ⟨fun hx => he (hexact.mpr hx), halias.mp ha⟩
      · rw [if_neg ha] at hal; exact absurd hal (by simp)
  · intro hnf
    rw [hres] at hnf
    by_cases he : hits.any (exactHitB (canonicalize (normalize_input_name name))) = true
    · rw [if_pos he] at hnf; exact absurd hnf (by simp)
    · rw [if_neg he] at hnf
      by_cases ha : hits.any (aliasHitB w (normalize_input_name name)
          (canonicalize (normalize_input_name name))) = true
      · rw [if_pos ha] at hnf; exact absurd hnf (by simp)
      · exact ⟨fun hx => he (hexact.mpr hx), fun hx => ha (halias.mpr hx)⟩

/-- C3 witness: a world with a single exactly-matching hit yields EXACT. -/
theorem claim_C3_witness :
    (dblp_author_search wHit "Jane Doe").2 = Verdict.EXACT :=
  (claim_C3_exact_priority wHit "Jane Doe" 200
      [⟨"Jane Doe", "https://dblp.org/pid/00/1"⟩] rfl (by decide) (by decide)).1
    ⟨⟨"Jane Doe", "https://dblp.org/pid/00/1"⟩, by decide, by decide⟩

/-- Closed form of the controller state after `k` updates from the initial
state: the integral is the plain (unclamped) sum of the errors so far, and
`prev_error` holds the last error (or `none` before the first call). -/
theorem pidAfter_take (kp ki kd sp : ℚ) (ms : List ℚ) :
    ∀ k, k ≤ ms.length →
    pidAfter (PIDController.mkInit kp ki kd sp) (ms.take k) =
      { kp := kp, ki := ki, kd := kd, setpoint := sp,
        integral := ∑ j ∈ Finset.range k, (sp - ms.getD j 0),
        prev_error := if k = 0 then none else some (sp - ms.getD (k - 1) 0) } := by
  intro k
  induction k with
  | zero => intro _; simp [pidAfter, PIDController.mkInit]
  | succ n ih =>
    intro hk
    have hn : n < ms.length := hk
    have htake : ms.take (n + 1) = ms.take n ++ [ms.getD n 0] := by
      rw [List.take_succ, List.getElem?_eq_getElem hn]
      simp [List.getD, List.getElem?_eq_getElem hn]
    simp only [pidAfter] at ih ⊢
    rw [htake, List.foldl_append, ih (Nat.le_of_lt hn)]
    simp [PIDController.update, Finset.sum_range_succ]
    ring

/-- C4: each `update` call in a run computes `error = setpoint - m_i`, adds
it to the running integral (which therefore equals the plain sum of all
errors so far — no clamping), uses derivative `0` on the first call and
`error - previous_error` afterwards, stores the error as `previous_error`,
and returns `kp*error + ki*integral + kd*derivative`. -/
theorem claim_C4_pid_recurrence (kp ki kd sp : ℚ) (ms : List ℚ) (i : Nat)
    (hi : i < ms.length) :
    pidAfter (PIDController.mkInit kp ki kd sp) (ms.take (i + 1)) =
      { kp := kp, ki := ki, kd := kd, setpoint := sp,
        integral := ∑ j ∈ Finset.range (i + 1), (sp - ms.getD j 0),
        prev_error := some (sp - ms.getD i 0) } ∧
    pidReturn (PIDController.mkInit kp ki kd sp) ms i =
      kp * (sp - ms.getD i 0) +
        ki * (∑ j ∈ Finset.range (i + 1), (sp - ms.getD j 0)) +
        kd * (if i = 0 then 0 else (sp - ms.getD i 0) - (sp - ms.getD (i - 1) 0)) := by
  constructor
  · rw [pidAfter_take kp ki kd sp ms (i + 1) hi]
    simp
  · unfold pidReturn
    rw [pidAfter_take kp ki kd sp ms i (Nat.le_of_lt hi)]
    rcases Nat.eq_zero_or_pos i with h0 | hpos
    · subst h0
      simp [PIDController.update, Finset.sum_range_succ]
    · have hne : i ≠ 0 := Nat.pos_iff_ne_zero.mp hpos
      rw [if_neg hne]
      simp only [PIDController.update, Finset.sum_range_succ]
      rw [if_neg hne]

/-- C4 witness at the measured values `[1, 2]`, second call. -/
theorem claim_C4_witness :
    1 < [(1 : ℚ), 2].length ∧
    (pidAfter (PIDController.mkInit 1 1 1 1) ([(1 : ℚ), 2].take (1 + 1)) =
      { kp := 1, ki := 1, kd := 1, setpoint := 1,
        integral := ∑ j ∈ Finset.range (1 + 1), ((1 : ℚ) - [(1 : ℚ), 2].getD j 0),
        prev_error := some ((1 : ℚ) - [(1 : ℚ), 2].getD 1 0) } ∧
     pidReturn (PIDController.mkInit 1 1 1 1) [(1 : ℚ), 2] 1 =
      1 * ((1 : ℚ) - [(1 : ℚ), 2].getD 1 0) +
        1 * (∑ j ∈ Finset.range (1 + 1), ((1 : ℚ) - [(1 : ℚ), 2].getD j 0)) +
        1 * (if 1 = 0 then 0
             else ((1 : ℚ) - [(1 : ℚ), 2].getD 1 0) - ((1 : ℚ) - [(1 : ℚ), 2].getD (1 - 1) 0))) :=
  ⟨by norm_num, claim_C4_pid_recurrence 1 1 1 1 [(1 : ℚ), 2] 1 (by norm_num)⟩

/-- C1: a name present in the in-memory `seen` set when `process_batch`
builds its task set — that is, a name read from the progress ledger at run
start — is filtered out of the task set, so no classification task is
submitted for it and `dblp_author_search` (invoked only through those
tasks) never runs for it during that run: it is neither among the
submitted task names nor among the completed results. -/
theorem claim_C1_seen_not_searched (fs : FS) (r : RunSpec) (name : String)
    (hperm : (r.completed.map Prod.fst).Perm (tasksOf (loadSeen fs.progress) r.rows))
    (hseen : name ∈ loadSeen fs.progress) :
    name ∉ (tasksOf (loadSeen fs.progress) r.rows).map Row.name ∧
    name ∉ r.completed.map (fun p => p.1.name) := by
  have h1 : name ∉ (tasksOf (loadSeen fs.progress) r.rows).map Row.name := by
    intro hmem
    rcases List.mem_map.mp hmem with ⟨row, hrow, hname⟩
    rcases List.mem_filter.mp hrow with ⟨-, hcond⟩
    have : row.name ∉ loadSeen fs.progress := by simpa using hcond
    exact this (hname ▸ hseen)
  refine ⟨h1, fun hmem => h1 ?_⟩
  have hp : (r.completed.map (fun p => p.1.name)).Perm
      ((tasksOf (loadSeen fs.progress) r.rows).map Row.name) := by
    simpa [List.map_map, Function.comp] using hperm.map Row.name
  exact hp.mem_iff.mp hmem

/-- C1 witness: with `"A"` in the ledger and rows named `A` and `B`, only
`B` is submitted, and `"A"` is classified nowhere in the run. -/
theorem claim_C1_witness :
    (runP.completed.map Prod.fst).Perm (tasksOf (loadSeen fsP.progress) runP.rows) ∧
    "A" ∈ loadSeen fsP.progress ∧
    ("A" ∉ (tasksOf (loadSeen fsP.progress) runP.rows).map Row.name ∧
     "A" ∉ runP.completed.map (fun p => p.1.name)) :=
  ⟨by decide, by decide, claim_C1_seen_not_searched fsP runP "A" (by decide) (by decide)⟩

/-- The output CSV grows by exactly the processed row when the verdict is
NOT_FOUND and the name is not yet in the output dedup set, and is
unchanged otherwise. -/
theorem processResult_output (st : BatchState) (row : Row) (out : Outcome) :
    (processResult st (row, out)).output =
      if out = Outcome.ok Verdict.NOT_FOUND ∧ row.name ∉ st.already_output
      then st.output ++ [row] else st.output := by
  rcases out with v | msg
  · rcases v <;> simp [processResult]
    split_ifs <;> simp_all
  · simp [processResult]

/-- The output dedup set gains exactly the written name on a write, and is
unchanged otherwise. -/
theorem processResult_already (st : BatchState) (row : Row) (out : Outcome) :
    (processResult st (row, out)).already_output =
      if out = Outcome.ok Verdict.NOT_FOUND ∧ row.name ∉ st.already_output
      then insert row.name st.already_output else st.already_output := by
  rcases out with v | msg
  · rcases v <;> simp [processResult]
    split_ifs <;> simp_all
  · simp [processResult]

/-- Every processed result appends the processed name (as file lines) to
the progress ledger, whatever the outcome. -/
theorem processResult_progress (st : BatchState) (row : Row) (out : Outcome) :
    (processResult st (row, out)).progress = st.progress ++ progressLinesOf row.name := by
  rcases out with v | msg
  · rcases v <;> simp [processResult]
    split_ifs <;> simp_all
  · simp [processResult]

/-- Invariant of the result-draining loop: if the output rows carry
pairwise-distinct names all recorded in the output dedup set, this remains
true after draining any list of completed futures. -/
theorem foldl_output_nodup (l : List (Row × Outcome)) :
    ∀ st : BatchState,
    (st.output.map Row.name).Nodup →
    (∀ n ∈ st.output.map Row.name, n ∈ st.already_output) →
    ((l.foldl processResult st).output.map Row.name).Nodup ∧
    (∀ n ∈ (l.foldl processResult st).output.map Row.name,
        n ∈ (l.foldl processResult st).already_output) := by
  induction l with
  | nil => intro st h1 h2; exact ⟨h1, h2⟩
  | cons p t ih =>
    intro st h1 h2
    rcases p with ⟨row, out⟩
    simp only [List.foldl_cons]
    apply ih
    · rw [processResult_output]
      split_ifs with hc

      · rcases hc with ⟨-, hnot⟩
        simp only [List.map_append, List.map_cons, List.map_nil]
        rw [List.nodup_append]
        refine ⟨h1, List.nodup_singleton _, ?_⟩
        intro a ha hb
        rcases List.mem_singleton.mp hb with rfl
        exact hnot (h2 _ ha)
      · exact h1
    · rw [processResult_output, processResult_already]
      split_ifs with hc
      · intro n hn
        simp only [List.map_append, List.map_cons, List.map_nil, List.mem_append,
          List.mem_singleton] at hn
        rcases hn with hn | rfl
        · exact Finset.mem_insert_of_mem (h2 _ hn)
        · exact Finset.mem_insert_self _ _
      · exact h2

/-- One run preserves distinctness of output-ledger names: at startup the
dedup set is rebuilt as exactly the set of names already in the file. -/
theorem find_missing_names_output_nodup (fs : FS) (r : RunSpec)
    (h : (fs.output.map Row.name).Nodup) :
    ((find_missing_names fs r).output.map Row.name).Nodup := by
  unfold find_missing_names
  split_ifs with he
  · exact h
  · exact (foldl_output_nodup r.completed _ h
      (fun n hn => List.mem_toFinset.mpr hn)).1

/-- C6: over the whole lifetime of the output ledger — any number of
resumed runs from fresh files, with arbitrary inputs and completion
orders — at most one output row ever carries a given name; and a single
processed result changes the output file only by appending its row, and
only when its verdict is NOT_FOUND and its name is not in the in-memory
output dedup set. -/
theorem claim_C6_output_once (runs : List RunSpec) (name : String) :
    ((lifetime FS.start runs).output.map Row.name).count name ≤ 1 ∧
    ∀ (st : BatchState) (row : Row) (out : Outcome),
      (processResult st (row, out)).output ≠ st.output →
      out = Outcome.ok Verdict.NOT_FOUND ∧ row.name ∉ st.already_output ∧
        (processResult st (row, out)).output = st.output ++ [row] := by
  constructor
  · have hnd : ((lifetime FS.start runs).output.map Row.name).Nodup := by
      have : ∀ fs : FS, (fs.output.map Row.name).Nodup →
          ((lifetime fs runs).output.map Row.name).Nodup := by
        induction runs with
        | nil => intro fs h; exact h
        | cons r rs ih =>
          intro fs h
          exact ih _ (find_missing_names_output_nodup fs r h)
      exact this FS.start (by simp [FS.start])
    exact List.nodup_iff_count_le_one.mp hnd name
  · intro st row out hne
    rw [processResult_output] at hne ⊢
    split_ifs at hne ⊢ with hc
    · exact ⟨hc.1, hc.2, rfl⟩
    · exact absurd rfl hne

/-- C6 witness: a run submitting the same NOT_FOUND name twice still
writes it once; and a concrete write step satisfies the write conditions. -/
theorem claim_C6_witness :
    ((lifetime FS.start [dupRun]).output.map Row.name).count "A" ≤ 1 ∧
    ((processResult stFresh (rowA, Outcome.ok Verdict.NOT_FOUND)).output ≠ stFresh.output ∧
     (Outcome.ok Verdict.NOT_FOUND = Outcome.ok Verdict.NOT_FOUND ∧
      rowA.name ∉ stFresh.already_output ∧
      (processResult stFresh (rowA, Outcome.ok Verdict.NOT_FOUND)).output =
        stFresh.output ++ [rowA])) :=
  ⟨(claim_C6_output_once [dupRun] "A").1,
   by decide,
   (claim_C6_output_once [dupRun] "A").2 stFresh rowA (Outcome.ok Verdict.NOT_FOUND)
     (by decide)⟩

/-- A string without a line break occupies exactly one file line. -/
theorem splitNL_no_newline : ∀ l : List Char, '\n' ∉ l → splitNL l = [l] := by
  intro l
  induction l with
  | nil => intro _; rfl
  | cons c cs ih =>
    intro h
    have hc : c ≠ '\n' := fun hc => h (hc ▸ List.mem_cons_self c cs)
    have hcs : '\n' ∉ cs := fun hm => h (List.mem_cons_of_mem c hm)
    simp only [splitNL, if_neg hc, ih hcs]

/-- Writing a clean name appends exactly one ledger line: the name. -/
theorem progressLinesOf_clean (n : String) (h : cleanName n) :
    progressLinesOf n = [n] := by
  unfold progressLinesOf
  rw [splitNL_no_newline n.data h.2.2]
  rfl

/-- Loading a ledger of clean names reconstructs exactly their set. -/
theorem loadSeen_clean (L : List String) (h : ∀ n ∈ L, cleanName n) :
    loadSeen L = L.toFinset := by
  unfold loadSeen
  have h1 : L.map pyStrip = L :=
    (List.map_congr_left (fun n hn => (h n hn).1)).trans (List.map_id L)
  rw [h1, List.filter_eq_self.mpr (fun n hn => by simpa using (h n hn).2.1)]

/-- Draining completed futures appends the processed names' ledger lines in
order, whatever the outcomes. -/
theorem foldl_progress (l : List (Row × Outcome)) :
    ∀ st : BatchState,
    (l.foldl processResult st).progress =
      st.progress ++ (l.map (fun p => progressLinesOf p.1.name)).flatten := by
  induction l with
  | nil => intro st; simp
  | cons p t ih =>
    intro st
    rcases p with ⟨row, out⟩
    simp only [List.foldl_cons, List.map_cons, List.flatten_cons]
    rw [ih, processResult_progress, List.append_assoc]

/-- Flattening a list of singleton lists recovers the mapped list. -/
theorem flattenMapSingleton {α β : Type} (l : List α) (f : α → β) :
    (l.map (fun a => [f a])).flatten = l.map f := by
  induction l with
  | nil => rfl
  | cons a t ih => simp [ih]

/-- Ledger-line bookkeeping over a lifetime of runs whose names are clean
and per-run distinct: the final progress ledger is the (globally
duplicate-free) list of attempted names appended to the initial ledger. -/
theorem lifetime_progress_clean (runs : List RunSpec) :
    ∀ fs : FS, validFrom fs runs = true →
    (∀ r ∈ runs, ∀ x ∈ r.rows, cleanName x.name) →
    (∀ r ∈ runs, (r.rows.map Row.name).Nodup) →
    (∀ n ∈ fs.progress, cleanName n) →
    fs.progress.Nodup →
    (lifetime fs runs).progress = fs.progress ++ attemptedNames runs ∧
    (fs.progress ++ attemptedNames runs).Nodup := by
  induction runs with
  | nil =>
    intro fs _ _ _ _ hnd
    simp [lifetime, attemptedNames, hnd]
  | cons r rs ih =>
    intro fs hv hclean hrnd hpclean hpnd
    rw [validFrom, Bool.and_eq_true, decide_eq_true_eq] at hv
    obtain ⟨hperm, hv'⟩ := hv
    -- names completed in this run
    set cn : List String := r.completed.map (fun p => p.1.name) with hcn
    have hmapmap : cn = (r.completed.map Prod.fst).map Row.name := by
      simp [hcn, List.map_map, Function.comp]
    have hpermn : cn.Perm ((tasksOf (loadSeen fs.progress) r.rows).map Row.name) := by
      rw [hmapmap]; exact hperm.map Row.name
    have htasks_sub : (tasksOf (loadSeen fs.progress) r.rows).map Row.name ⊆
        r.rows.map Row.name := by
      intro n hn
      rcases List.mem_map.mp hn with ⟨x, hx, rfl⟩
      exact List.mem_map.mpr ⟨x, (List.mem_filter.mp hx).1, rfl⟩
    have hcn_clean : ∀ n ∈ cn, cleanName n := by
      intro n hn
      have := htasks_sub (hpermn.mem_iff.mp hn)
      rcases List.mem_map.mp this with ⟨x, hx, rfl⟩
      exact hclean r (List.mem_cons_self r rs) x hx
    have hcn_nodup : cn.Nodup := by
      refine hpermn.nodup_iff.mpr ?_
      exact ((List.filter_sublist _).map Row.name).nodup
        (hrnd r (List.mem_cons_self r rs))
    have hcn_fresh : ∀ n ∈ cn, n ∉ fs.progress := by
      intro n hn hmem
      have hin : n ∈ (tasksOf (loadSeen fs.progress) r.rows).map Row.name :=
        hpermn.mem_iff.mp hn
      rcases List.mem_map.mp hin with ⟨x, hx, rfl⟩
      rcases List.mem_filter.mp hx with ⟨-, hcond⟩
      have hnot : x.name ∉ loadSeen fs.progress := by simpa using hcond
      rw [loadSeen_clean fs.progress hpclean] at hnot
      exact hnot (List.mem_toFinset.mpr hmem)
    -- the run appends exactly the completed names
    have hrunprog : (find_missing_names fs r).progress = fs.progress ++ cn := by
      unfold find_missing_names
      split_ifs with he
      · -- empty input: no tasks, so a valid completion list is empty
        have : tasksOf (loadSeen fs.progress) r.rows = [] := by
          rcases r with ⟨rows, completed⟩
          simp only [List.isEmpty_iff] at he
          simp [tasksOf, he]
        rw [this] at hperm
        have : r.completed.map Prod.fst = [] := List.Perm.eq_nil hperm
        have hc0 : r.completed = [] := by
          rcases hc : r.completed with _ | ⟨a, t⟩
          · rfl
          · rw [hc] at this; simp at this
        simp [hcn, hc0]
      · dsimp only
        rw [foldl_progress]
        congr 1
        have hsing : ∀ p ∈ r.completed, progressLinesOf p.1.name = [p.1.name] := by
          intro p hp
          exact progressLinesOf_clean _ (hcn_clean _ (List.mem_map.mpr ⟨p, hp, rfl⟩))
        rw [List.map_congr_left hsing, flattenMapSingleton]
    have hnext_clean : ∀ n ∈ (find_missing_names fs r).progress, cleanName n := by
      rw [hrunprog]
      intro n hn
      rcases List.mem_append.mp hn with h | h
      · exact hpclean n h
      · exact hcn_clean n h
    have hnext_nodup : (find_missing_names fs r).progress.Nodup := by
      rw [hrunprog, List.nodup_append]
      exact ⟨hpnd, hcn_nodup, fun a ha hb => hcn_fresh a hb ha⟩
    have ihres := ih (find_missing_names fs r) hv'
      (fun r' hr' => hclean r' (List.mem_cons_of_mem r hr'))
      (fun r' hr' => hrnd r' (List.mem_cons_of_mem r hr'))
      hnext_clean hnext_nodup
    have hatt : attemptedNames (r :: rs) = cn ++ attemptedNames rs := by
      simp [attemptedNames, hcn]
    constructor
    · have : lifetime fs (r :: rs) = lifetime (find_missing_names fs r) rs := by
        simp [lifetime]
      rw [this, ihres.1, hrunprog, hatt, List.append_assoc]
    · rw [hatt, ← List.append_assoc, ← hrunprog]
      exact ihres.2

/-- C9 counterexample: an input with the same name in two rows is submitted
twice in one run (the task set is built before any result is processed),
so the ledger gains two lines for one distinct attempted name. -/
theorem claim_C9_counterexample :
    validFrom FS.start [dupRun] = true ∧
    (lifetime FS.start [dupRun]).progress.length ≠
      (attemptedNames [dupRun]).dedup.length := by
  constructor
  · decide
  · decide

/-- C9 (amended): each completed classification attempt appends exactly one
ledger line, so over a lifetime of well-formed resumed runs the ledger line
count equals the number of distinct attempted names, provided the names are
clean (nonempty, whitespace-trimmed, newline-free — otherwise the startup
strip-and-drop re-admits them) and no run's input repeats a name (otherwise
the duplicate rows of one batch are each submitted, as in the
counterexample). -/
theorem claim_C9_amended (runs : List RunSpec)
    (hv : validFrom FS.start runs = true)
    (hclean : ∀ r ∈ runs, ∀ x ∈ r.rows, cleanName x.name)
    (hrnd : ∀ r ∈ runs, (r.rows.map Row.name).Nodup) :
    (lifetime FS.start runs).progress.length =
      (attemptedNames runs).dedup.length := by
  obtain ⟨heq, hnd⟩ := lifetime_progress_clean runs FS.start hv hclean hrnd
    (by intro n hn; simp [FS.start] at hn) (by simp [FS.start])
  rw [heq]
  simp only [FS.start, List.nil_append] at hnd ⊢
  rw [List.Nodup.dedup hnd]

/-- C9 witness: two well-formed runs with clean, per-run-distinct names —
three attempts, three ledger lines, three distinct names. -/
theorem claim_C9_witness :
    validFrom FS.start [run1, run2] = true ∧
    (∀ r ∈ [run1, run2], ∀ x ∈ r.rows, cleanName x.name) ∧
    (∀ r ∈ [run1, run2], (r.rows.map Row.name).Nodup) ∧
    (lifetime FS.start [run1, run2]).progress.length =
      (attemptedNames [run1, run2]).dedup.length :=
  ⟨by decide, by decide, by decide,
   claim_C9_amended [run1, run2] (by decide) (by decide) (by decide)⟩

/-- Packing a scalar value below the surrogate range round-trips. -/
theorem char_toNat_ofNat {n : Nat} (h : n < 55296) : (Char.ofNat n).toNat = n := by
  unfold Char.ofNat
  rw [dif_pos (Or.inl h)]
  rfl

theorem pyLower_eq_self_of_not (c : Char) (h : ¬(65 ≤ c.toNat ∧ c.toNat ≤ 90)) :
    pyLower c = c := by
  unfold pyLower
  exact if_neg h

theorem pyLower_toNat (c : Char) (h : 65 ≤ c.toNat ∧ c.toNat ≤ 90) :
    (pyLower c).toNat = c.toNat + 32 := by
  unfold pyLower
  rw [if_pos h]
  exact char_toNat_ofNat (by omega)

theorem pyLower_idem (c : Char) : pyLower (pyLower c) = pyLower c := by
  by_cases h : 65 ≤ c.toNat ∧ c.toNat ≤ 90
  · exact pyLower_eq_self_of_not _ (by have := pyLower_toNat c h; omega)
  · rw [pyLower_eq_self_of_not c h, pyLower_eq_self_of_not c h]

/-- Lower-casing the output of `pyLower` never lands on a whitespace
character unless the input already was one. -/
theorem pyLower_space (c : Char) (h : isPySpace (pyLower c) = true) :
    isPySpace c = true := by
  by_cases hr : 65 ≤ c.toNat ∧ c.toNat ≤ 90
  · exfalso
    have ht := pyLower_toNat c hr
    have hm : (pyLower c).toNat ∈ pySpaceCodes := by
      have h' : pySpaceCodes.elem (pyLower c).toNat = true := h
      exact List.elem_iff.mp h'
    have hno : ∀ m ∈ pySpaceCodes, m < 97 ∨ 122 < m := by decide
    rcases hno _ hm with hlt | hgt <;> omega
  · rwa [pyLower_eq_self_of_not c hr] at h

theorem pyLower_dot (c : Char) (h : pyLower c = '.') : c = '.' := by
  by_cases hr : 65 ≤ c.toNat ∧ c.toNat ≤ 90
  · exfalso
    have ht := pyLower_toNat c hr
    have : (pyLower c).toNat = 46 := by rw [h]; rfl
    omega
  · rwa [pyLower_eq_self_of_not c hr] at h

/-- Every character emitted by the whitespace collapse is either the
replacement space or a non-whitespace character of the input. -/
theorem collapseWsAux_chars :
    ∀ (l : List Char) (b : Bool) (c : Char),
    c ∈ collapseWsAux b l → c = ' ' ∨ (c ∈ l ∧ isPySpace c = false) := by
  intro l
  induction l with
  | nil => intro b c h; simp [collapseWsAux] at h
  | cons d cs ih =>
    intro b c h
    by_cases hd : isPySpace d
    · cases b with
      | true =>
        rw [collapseWsAux, if_pos hd, if_pos rfl] at h
        rcases ih true c h with h' | ⟨hm, hns⟩
        · exact Or.inl h'
        · exact Or.inr ⟨List.mem_cons_of_mem d hm, hns⟩
      | false =>
        rw [collapseWsAux, if_pos hd, if_neg (by simp)] at h
        rcases List.mem_cons.mp h with rfl | h'
        · exact Or.inl rfl
        · rcases ih true c h' with h'' | ⟨hm, hns⟩
          · exact Or.inl h''
          · exact Or.inr ⟨List.mem_cons_of_mem d hm, hns⟩
    · rw [collapseWsAux, if_neg hd] at h
      rcases List.mem_cons.mp h with rfl | h'
      · exact Or.inr ⟨List.mem_cons_self c cs, by simpa using hd⟩
      · rcases ih false c h' with h'' | ⟨hm, hns⟩
        · exact Or.inl h''
        · exact Or.inr ⟨List.mem_cons_of_mem d hm, hns⟩

/-- While inside a whitespace run, the next emitted character is not
whitespace. -/
theorem collapseWsAux_head_true :
    ∀ (l : List Char) (c : Char) (t : List Char),
    collapseWsAux true l = c :: t → isPySpace c = false := by
  intro l
  induction l with
  | nil => intro c t h; simp [collapseWsAux] at h
  | cons d cs ih =>
    intro c t h
    by_cases hd : isPySpace d
    · rw [collapseWsAux, if_pos hd, if_pos rfl] at h
      exact ih c t h
    · rw [collapseWsAux, if_neg hd] at h
      rcases List.cons.injEq .. ▸ h with ⟨rfl, -⟩
      simpa using hd

/-- The collapse output never has two adjacent whitespace characters. -/
theorem collapseWsAux_chain :
    ∀ (l : List Char) (b : Bool), List.Chain' noTwoWs (collapseWsAux b l) := by
  intro l
  induction l with
  | nil => intro b; simp [collapseWsAux]
  | cons d cs ih =>
    intro b
    by_cases hd : isPySpace d
    · cases b with
      | true =>
        rw [collapseWsAux, if_pos hd, if_pos rfl]
        exact ih true
      | false =>
        rw [collapseWsAux, if_pos hd, if_neg (by simp)]
        rw [List.chain'_cons']
        refine ⟨?_, ih true⟩
        intro y hy
        rcases hh : collapseWsAux true cs with _ | ⟨c0, t0⟩
        · rw [hh] at hy; simp at hy
        · rw [hh] at hy
          simp only [List.head?_cons, Option.mem_some_iff] at hy
          cases hy
          exact Or.inr (collapseWsAux_head_true cs _ t0 hh)
    · rw [collapseWsAux, if_neg hd]
      rw [List.chain'_cons']
      exact ⟨fun y _ => Or.inl (by simpa using hd), ih false⟩

/-- The collapse is the identity on lists whose whitespace is the plain
space character with no two adjacent. -/
theorem collapseWsAux_id :
    ∀ (l : List Char) (b : Bool),
    (∀ c ∈ l, isPySpace c = true → c = ' ') →
    List.Chain' noTwoWs l →
    (b = true → ∀ c t, l = c :: t → isPySpace c = false) →
    collapseWsAux b l = l := by
  intro l
  induction l with
  | nil => intro b _ _ _; cases b <;> rfl
  | cons d cs ih =>
    intro b hall hchain hhead
    have hchain' := List.chain'_cons'.mp hchain
    by_cases hd : isPySpace d
    · have hd' : d = ' ' := hall d (List.mem_cons_self d cs) hd
      cases b with
      | true => exact absurd hd (by simp [hhead rfl d cs rfl])
      | false =>
        rw [collapseWsAux, if_pos hd, if_neg (by simp)]
        have hcs : collapseWsAux true cs = cs := by
          refine ih true (fun c hc => hall c (List.mem_cons_of_mem d hc)) hchain'.2 ?_
          intro _ c t hct
          have := hchain'.1 c (by rw [hct]; rfl)
          rcases this with h' | h'
          · exact absurd hd (by simp [h'])
          · exact h'
        rw [hcs, hd']
    · rw [collapseWsAux, if_neg hd]
      have hcs : collapseWsAux false cs = cs :=
        ih false (fun c hc => hall c (List.mem_cons_of_mem d hc)) hchain'.2
          (fun hb => absurd hb (by simp))
      rw [hcs]

theorem stripChars_eq (l : List Char) :
    stripChars l = (l.dropWhile isPySpace).rdropWhile isPySpace := rfl

theorem stripChars_within (l : List Char) : stripChars l <:+: l := by
  rcases List.rdropWhile_prefix isPySpace (l.dropWhile isPySpace) with ⟨t, ht⟩
  rcases (List.dropWhile_suffix isPySpace : l.dropWhile isPySpace <:+ l) with ⟨s, hs⟩
  refine ⟨s, t, ?_⟩
  rw [List.append_assoc, stripChars_eq, ht, hs]

/-- The strip output has no leading whitespace. -/
theorem stripChars_dropWhile (l : List Char) :
    (stripChars l).dropWhile isPySpace = stripChars l := by
  rw [List.dropWhile_eq_self_iff]
  intro hl
  have hpre : stripChars l <+: l.dropWhile isPySpace := by
    rw [stripChars_eq]; exact List.rdropWhile_prefix _ _
  rcases hpre with ⟨t, ht⟩
  have hlen : 0 < (l.dropWhile isPySpace).length := by
    rw [← ht, List.length_append]
    omega
  have h0 : (stripChars l).get ⟨0, hl⟩ = (l.dropWhile isPySpace).get ⟨0, hlen⟩ := by
    simp only [List.get_eq_getElem, ← ht]
    rw [List.getElem_append_left hl]
  rw [h0]
  exact List.dropWhile_get_zero_not isPySpace l hlen

theorem stripChars_idem (l : List Char) :
    stripChars (stripChars l) = stripChars l := by
  rw [stripChars_eq (stripChars l), stripChars_dropWhile, stripChars_eq l,
    List.rdropWhile_idempotent]

/-- Core of the idempotence analysis: on a period-free character list the
second canonicalization pass is the identity.  (On lists that do contain a
period this can fail: removing a period between two spaces leaves a double
space that only the second pass collapses.) -/
theorem canonChars_idem (x : List Char) (hdot : '.' ∉ x) :
    canonChars (canonChars x) = canonChars x := by
  have hw_chars := collapseWsAux_chars x false
  have hw_nodot : '.' ∉ collapseWs x := by
    intro h
    rcases hw_chars '.' h with h' | ⟨hm, -⟩
    · exact absurd h' (by decide)
    · exact hdot hm
  have hfilter : (collapseWs x).filter (fun c => c ≠ '.') = collapseWs x :=
    List.filter_eq_self.mpr
      (fun c hc => decide_eq_true (fun e : c = '.' => hw_nodot (e ▸ hc)))
  have hcanon : canonChars x = stripChars ((collapseWs x).map pyLower) := by
    rw [canonChars, hfilter]
  -- facts about the lower-cased collapse output
  have hv_allws : ∀ c ∈ (collapseWs x).map pyLower, isPySpace c = true → c = ' ' := by
    intro c hc hsp
    rcases List.mem_map.mp hc with ⟨d, hd, rfl⟩
    rcases hw_chars d hd with rfl | ⟨-, hns⟩
    · rfl
    · exact absurd (pyLower_space d hsp) (by simp [hns])
  have hv_chain : List.Chain' noTwoWs ((collapseWs x).map pyLower) := by
    rw [List.chain'_map]
    refine (collapseWsAux_chain x false).imp ?_
    intro a b hab
    rcases hab with h' | h'
    · exact Or.inl (by
        rcases hsp : isPySpace (pyLower a) with _ | _
        · rfl
        · exact absurd (pyLower_space a hsp) (by simp [h']))
    · exact Or.inr (by
        rcases hsp : isPySpace (pyLower b) with _ | _
        · rfl
        · exact absurd (pyLower_space b hsp) (by simp [h']))
  have hv_nodot : '.' ∉ (collapseWs x).map pyLower := by
    intro h
    rcases List.mem_map.mp h with ⟨d, hd, he⟩
    exact hw_nodot (pyLower_dot d he ▸ hd)
  have hv_fix : ∀ c ∈ (collapseWs x).map pyLower, pyLower c = c := by
    intro c hc
    rcases List.mem_map.mp hc with ⟨d, -, rfl⟩
    exact pyLower_idem d
  -- transfer to the stripped value y
  have hy_sub : canonChars x ⊆ (collapseWs x).map pyLower := by
    rw [hcanon]; exact (stripChars_within _).subset
  have hy_chain : List.Chain' noTwoWs (canonChars x) := by
    rw [hcanon]; exact List.Chain'.infix hv_chain (stripChars_within _)
  -- second pass
  rw [hcanon, canonChars]
  have h1 : collapseWs (stripChars ((collapseWs x).map pyLower)) =
      stripChars ((collapseWs x).map pyLower) := by
    refine collapseWsAux_id _ false ?_ ?_ (fun hb => absurd hb (by simp))
    · intro c hc
      exact hv_allws c ((stripChars_within _).subset hc)
    · exact List.Chain'.infix hv_chain (stripChars_within _)
  rw [h1]
  have h2 : (stripChars ((collapseWs x).map pyLower)).filter (fun c => c ≠ '.') =
      stripChars ((collapseWs x).map pyLower) :=
    List.filter_eq_self.mpr (fun c hc => decide_eq_true
      (fun e : c = '.' => hv_nodot (e ▸ (stripChars_within _).subset hc)))
  rw [h2]
  have h3 : (stripChars ((collapseWs x).map pyLower)).map pyLower =
      stripChars ((collapseWs x).map pyLower) := by
    refine (List.map_congr_left ?_).trans (List.map_id _)
    intro c hc
    exact hv_fix c ((stripChars_within _).subset hc)
  rw [h3, stripChars_idem]

/-- C8 counterexample: `canonicalize` is not idempotent.  In `"a . b"` the
period sits between two spaces; the first pass removes it, leaving the
double space `"a  b"`, which a second pass collapses to `"a b"`. -/
theorem claim_C8_counterexample :
    canonicalize (canonicalize "a . b") ≠ canonicalize "a . b" := by decide

/-- C8 (amended): `canonicalize` is idempotent on every ASCII string
containing no period (removing a period is the one step that can create a
new whitespace run, as in the counterexample; the ASCII bound is the range
on which the model's omitted NFKC step is the identity). -/
theorem claim_C8_amended (s : String)
    (hascii : ∀ c ∈ s.data, c.toNat < 128) (hdot : '.' ∉ s.data) :
    canonicalize (canonicalize s) = canonicalize s := by
  have := hascii
  exact congrArg String.mk (canonChars_idem s.data hdot)

/-- C8 witness at the ASCII, period-free string `"A b"`. -/
theorem claim_C8_witness :
    (∀ c ∈ ("A b" : String).data, c.toNat < 128) ∧
    ('.' ∉ ("A b" : String).data) ∧
    canonicalize (canonicalize "A b") = canonicalize "A b" :=
  ⟨by decide, by decide, claim_C8_amended "A b" (by decide) (by decide)⟩

end FindMissing
